import Mathlib

/-!
Shallow embedding of `compiler/src/ir.rs` (bytecode finalization core):
the block graph (`CodeInfo`), linearization (`finalize_code`), dead-code
truncation (`dce`), closure-cell mapping (`cell2arg`) and the stack-depth
analysis (`max_stacksize` / `stackdepth_push`), together with theorems
settling the specification claims about them.

Rust `usize`/`u32` indices are modelled as `Nat` (no claim here depends on
index overflow); the `i32` stack depth is modelled as `Int`, and the final
`maxdepth as u32` cast is modelled as reduction mod `2 ^ 32`. Panics
(slice-index panics, `unwrap`, `assert!`) are modelled as an `Except`
error; the outer work-stack loop of `max_stacksize` is run on explicit
fuel, `none` meaning the fuel was exhausted.
-/

namespace RPIr

/-- Modelled from the spec: the source-location type attached to every
instruction lives outside this slice (`rustpython_bytecode`); per the spec it
is a line/column pair used only for tracebacks and carried through
linearization unchanged. -/
structure Location where
  row : Nat
  column : Nat
deriving DecidableEq

/-- Modelled from the spec: the `Instruction` type and its methods
(`stack_effect`, `label_arg`, `label_arg_mut`, `unconditional_branch`) live in
the external `rustpython_bytecode` crate, not in this slice. Per the spec an
instruction is a closed discriminated operation that (i) may carry one
`Label`-typed branch operand, (ii) classifies as an unconditional control
transfer or not, and (iii) exposes a static stack-effect given a
branch-taken flag. We record exactly those observables: the two stack
effects, the optional label operand, and the transfer flag. -/
structure Instruction where
  effectFall : Int
  effectBranch : Int
  labelArg : Option Nat
  uncond : Bool
deriving DecidableEq

/-- `Instruction::stack_effect(jump)` (external crate, modelled from the spec). -/
def Instruction.stack_effect (i : Instruction) (jump : Bool) : Int :=
  if jump then i.effectBranch else i.effectFall

/-- `Instruction::label_arg` (external crate, modelled from the spec). -/
def Instruction.label_arg (i : Instruction) : Option Nat :=
  i.labelArg

/-- `Instruction::unconditional_branch` (external crate, modelled from the spec). -/
def Instruction.unconditional_branch (i : Instruction) : Bool :=
  i.uncond

/-- `ir.rs` `InstructionInfo`: an instruction paired with its source location. -/
structure InstructionInfo where
  instr : Instruction
  location : Location
deriving DecidableEq

/-- `ir.rs` `Block`: an ordered instruction sequence plus the `done` flag. -/
structure Block where
  instructions : List InstructionInfo
  done : Bool
deriving DecidableEq

/-- `impl Default for Block`: empty instruction list, `done: false`
(this is what `std::mem::take` leaves behind during linearization). -/
def Block.default : Block :=
  ⟨[], false⟩

/-- Modelled from the spec: `CodeFlags` is a bitflags type from the external
bytecode crate; `cell2arg` reads only the `HAS_VARARGS` and `HAS_VARKEYWORDS`
bits (the variadic-positional and variadic-keyword flags), so only those two
bits are modelled. -/
structure CodeFlags where
  hasVarargs : Bool
  hasVarkeywords : Bool
deriving DecidableEq

/-- Modelled from the spec: `ConstantData` (external bytecode crate) is
carried through finalization untouched, so it is modelled opaquely. -/
abbrev ConstantData := Unit

/-- `ir.rs` `CodeInfo`: the block graph plus function-level metadata. The
four `IndexSet` interned caches are modelled as insertion-ordered duplicate-
free lists (`IndexSet::get_index_of` = index of the first occurrence). -/
structure CodeInfo where
  flags : CodeFlags
  posonlyarg_count : Nat
  arg_count : Nat
  kwonlyarg_count : Nat
  source_path : String
  first_line_number : Nat
  obj_name : String
  blocks : List Block
  block_order : List Nat
  constants : List ConstantData
  name_cache : List String
  varname_cache : List String
  cellvar_cache : List String
  freevar_cache : List String
deriving DecidableEq

/-- `bytecode::CodeObject`, restricted to the fields `finalize_code` fills in. -/
structure CodeObject where
  flags : CodeFlags
  posonlyarg_count : Nat
  arg_count : Nat
  kwonlyarg_count : Nat
  source_path : String
  first_line_number : Nat
  obj_name : String
  max_stacksize : Nat
  instructions : List Instruction
  locations : List Location
  constants : List ConstantData
  names : List String
  varnames : List String
  cellvars : List String
  freevars : List String
  cell2arg : Option (List Int)
deriving DecidableEq

/-- The Rust panic sites of this file, distinguished by site. -/
inductive RPanic where
  /-- a slice-index panic on `blocks` / `seen` / `startdepths` /
  `block_to_offset` (an out-of-range block id). -/
  | badIndex
  /-- `self.block_order.iter().position(..).unwrap()` failed: the processed
  block does not occur in `block_order`. -/
  | missingBlock
  /-- `self.block_order[next_blockorder]` was out of range: a block fell
  through past the last position of `block_order`. -/
  | fallOff
  /-- `assert!(block_order.len() == blocks.len())` failed. -/
  | assertOrder
deriving DecidableEq

/-- Checked slice read (`v[i]` panics when out of range). -/
def idxE {α : Type} (l : List α) (i : Nat) : Except RPanic α :=
  match l.get? i with
  | some a => .ok a
  | none => .error .badIndex

/-- Checked slice write (`v[i] = a` panics when out of range). -/
def setE {α : Type} (l : List α) (i : Nat) (a : α) : Except RPanic (List α) :=
  if i < l.length then .ok (l.set i a) else .error .badIndex

/-- `u32::MAX`, the sentinel `blockorder` stored with branch-target pushes. -/
def UMAX : Nat := 4294967295

/-- The `i32 as u32` cast at the end of `max_stacksize`. -/
def intAsU32 (x : Int) : Nat :=
  (x % (4294967296 : Int)).toNat

/-- `ir.rs` `stackdepth_push`: record `depth` as the target's start depth and
(re-)enqueue the target, but only when `depth` strictly exceeds the depth
already recorded. The work stack grows at the front (`Vec::push`/`pop` LIFO). -/
def stackdepth_push (stack : List (Nat × Nat)) (startdepths : List Int)
    (target : Nat × Nat) (depth : Int) : Except RPanic (List (Nat × Nat) × List Int) := do
  let blockDepth ← idxE startdepths target.1
  if depth > blockDepth then
    pure (target :: stack, startdepths.set target.1 depth)
  else
    pure (stack, startdepths)

/-- The pieces of `max_stacksize` state that the per-block instruction walk
may change: `maxdepth`, the work stack, and the recorded start depths. -/
structure WalkSt where
  maxdepth : Int
  stack : List (Nat × Nat)
  startdepths : List Int
deriving DecidableEq

/-- The `for i in &self.blocks[..].instructions` walk inside `max_stacksize`:
accumulate the running depth, update `maxdepth` on the fall-through and
branch-taken depths, enqueue branch targets via `stackdepth_push`, and stop
at the first unconditional transfer. Returns `some depth` when the walk fell
off the end of the block (the `depth` in hand), `none` when it ended at an
unconditional transfer (`continue 'process_blocks`). -/
def walkInstrs : List InstructionInfo → Int → WalkSt → Except RPanic (WalkSt × Option Int)
  | [], depth, st => .ok (st, some depth)
  | i :: rest, depth, st => do
    let instr := i.instr
    let effect := instr.stack_effect false
    let newDepth := depth + effect
    let st := { st with maxdepth := if newDepth > st.maxdepth then newDepth else st.maxdepth }
    let st ←
      match instr.label_arg with
      | some targetBlock => do
        let effectJ := instr.stack_effect true
        let targetDepth := depth + effectJ
        let maxd := if targetDepth > st.maxdepth then targetDepth else st.maxdepth
        let (stk, sd) ← stackdepth_push st.stack st.startdepths (targetBlock, UMAX) targetDepth
        pure (⟨maxd, stk, sd⟩ : WalkSt)
      | none => pure st
    if instr.unconditional_branch then
      .ok (st, none)
    else
      walkInstrs rest newDepth st

/-- The full loop state of `max_stacksize`: `WalkSt` plus the `seen` markers. -/
structure LoopSt where
  maxdepth : Int
  stack : List (Nat × Nat)
  startdepths : List Int
  seen : List Bool
deriving DecidableEq

/-- The `next_blockorder` computation on fall-through: the stored position
plus one, or — for a block popped with the `u32::MAX` sentinel — its
position found by `self.block_order.iter().position(..).unwrap()` plus one. -/
def nextBlockorderOf (g : CodeInfo) (block blockorder : Nat) : Except RPanic Nat :=
  if blockorder = UMAX then
    match g.block_order.findIdx? (fun x => x = block) with
    | some p => pure (p + 1)
    | none => Except.error .missingBlock
  else
    pure (blockorder + 1)

/-- The `self.block_order[next_blockorder]` read (panics past the end). -/
def nextOf (g : CodeInfo) (nextBlockorder : Nat) : Except RPanic Nat :=
  match g.block_order.get? nextBlockorder with
  | some nb => pure nb
  | none => Except.error .fallOff

/-- The fall-through tail of a loop iteration: clear the block's `seen`
marker, locate the next block in `block_order`, and push it at the running
depth via `stackdepth_push`. -/
def fallThrough (g : CodeInfo) (block blockorder : Nat) (seen1 : List Bool)
    (wst : WalkSt) (depth : Int) : Except RPanic LoopSt := do
  let seen2 ← setE seen1 block false
  let nextBlockorder ← nextBlockorderOf g block blockorder
  let next ← nextOf g nextBlockorder
  let (stk, sd) ← stackdepth_push wst.stack wst.startdepths (next, nextBlockorder) depth
  pure ⟨wst.maxdepth, stk, sd, seen2⟩

/-- One iteration of the `'process_blocks` loop for a popped `(block,
blockorder)` pair (the pair already removed from `st.stack`): skip if
`seen`, otherwise mark `seen`, walk the block's instructions from its
recorded start depth, and on fall-through clear `seen`, locate the next
block in `block_order` and push it with the running depth. When the walk
ends at an unconditional transfer, `seen` stays set. -/
def loopBody (g : CodeInfo) (block blockorder : Nat) (st : LoopSt) : Except RPanic LoopSt := do
  let isSeen ← idxE st.seen block
  if isSeen then
    pure st
  else do
    let seen1 ← setE st.seen block true
    let depth0 ← idxE st.startdepths block
    let blk ← idxE g.blocks block
    let (wst, fell) ← walkInstrs blk.instructions depth0 ⟨st.maxdepth, st.stack, st.startdepths⟩
    match fell with
    | none => pure ⟨wst.maxdepth, wst.stack, wst.startdepths, seen1⟩
    | some depth => fallThrough g block blockorder seen1 wst depth

/-- The `'process_blocks` work-stack loop, run on explicit fuel (`none` =
fuel exhausted). An empty stack returns the accumulated `maxdepth`. -/
def maxStacksizeLoop (g : CodeInfo) : Nat → LoopSt → Option (Except RPanic Int)
  | 0, _ => none
  | fuel + 1, st =>
    match st.stack with
    | [] => some (.ok st.maxdepth)
    | (block, blockorder) :: stack' =>
      match loopBody g block blockorder { st with stack := stack' } with
      | .error e => some (.error e)
      | .ok st' => maxStacksizeLoop g fuel st'

/-- `CodeInfo::max_stacksize`: `maxdepth := 0`, work stack seeded with
`(Label(0), 0)`, every start depth initialized to `0`
(`vec![0; self.blocks.len()]`), every `seen` marker to `false`; run the
work-stack loop, then cast the resulting `i32` to `u32`. -/
def max_stacksize (g : CodeInfo) (fuel : Nat) : Option (Except RPanic Nat) :=
  match maxStacksizeLoop g fuel
      ⟨0, [(0, 0)], List.replicate g.blocks.length 0, List.replicate g.blocks.length false⟩ with
  | none => none
  | some (.error e) => some (.error e)
  | some (.ok d) => some (.ok (intAsU32 d))

/-- The `total_args` local of `cell2arg`: `arg_count + kwonlyarg_count`
plus one per variadic flag (`HAS_VARARGS`, `HAS_VARKEYWORDS`). -/
def totalArgsOf (g : CodeInfo) : Nat :=
  g.arg_count + g.kwonlyarg_count
    + (if g.flags.hasVarargs then 1 else 0)
    + (if g.flags.hasVarkeywords then 1 else 0)

/-- The body of the `map` closure inside `cell2arg`, threading the
`found_cellarg` side effect as the first component: look the cell variable
up in the local-variable cache (`get_index_of`), keep the index when it is
an argument index (`filter(|i| *i < total_args)`), else emit `-1`. -/
def cellStep (g : CodeInfo) (acc : Bool × List Int) (var : String) : Bool × List Int :=
  match g.varname_cache.findIdx? (fun s => s = var) with
  | some i =>
    if i < totalArgsOf g then (true, acc.2 ++ [(i : Int)]) else (acc.1, acc.2 ++ [-1])
  | none => (acc.1, acc.2 ++ [-1])

/-- `CodeInfo::cell2arg`: for each interned cell variable in order, the index
of the local variable of the same name when that index is below
`total_args`, else `-1`; `None` when there are no cell variables or when no
entry matched (`found_cellarg` stayed false). -/
def cell2arg (g : CodeInfo) : Option (List Int) :=
  if g.cellvar_cache.isEmpty then
    none
  else
    let res := g.cellvar_cache.foldl (cellStep g) (false, [])
    if res.1 then some res.2 else none

/-- The per-block body of `CodeInfo::dce`: find the first instruction
classified as an unconditional transfer and truncate the list to end
immediately after it; leave the block unchanged when there is none. -/
def dceBlock (b : Block) : Block :=
  match b.instructions.findIdx? (fun i => i.instr.unconditional_branch) with
  | some i => { b with instructions := b.instructions.take (i + 1) }
  | none => b

/-- `CodeInfo::dce`: apply the truncation to every block independently. -/
def dce (g : CodeInfo) : CodeInfo :=
  { g with blocks := g.blocks.map dceBlock }

/-- The instruction-list level of `dceBlock`: keep everything up to and
including the first unconditional transfer. -/
def truncUncond (l : List InstructionInfo) : List InstructionInfo :=
  match l.findIdx? (fun i => i.instr.unconditional_branch) with
  | some i => l.take (i + 1)
  | none => l

/-- One step of the first linearization pass: store the running
`num_instructions` as the block's offset, then add the block's instruction
count. -/
def offsetStep (blocks : List Block) (acc : Nat × List Nat) (idx : Nat) :
    Except RPanic (Nat × List Nat) := do
  let b ← idxE blocks idx
  let tbl ← setE acc.2 idx acc.1
  pure (acc.1 + b.instructions.length, tbl)

/-- First linearization pass of `finalize_code`: walk `block_order` once,
recording for each block the offset at which its instructions will start
(`block_to_offset`, initialized to `vec![Label(0); blocks.len()]`) and
accumulating `num_instructions`. -/
def computeOffsets (blocks : List Block) (order : List Nat) :
    Except RPanic (Nat × List Nat) :=
  order.foldlM (offsetStep blocks) (0, List.replicate blocks.length 0)

/-- The `label_arg_mut` rewrite inside the second pass: replace a branch
operand by its `block_to_offset` table entry; instructions without a label
operand pass through unchanged. -/
def rewriteInstr (tbl : List Nat) (i : Instruction) : Except RPanic Instruction :=
  match i.labelArg with
  | some l => do
    let off ← idxE tbl l
    pure { i with labelArg := some off }
  | none => pure i

/-- One step of the per-block emission loop: rewrite one instruction's
label operand and append the instruction and its location to the output
arrays. -/
def emitStep (tbl : List Nat) (acc : List Instruction × List Location)
    (ii : InstructionInfo) : Except RPanic (List Instruction × List Location) := do
  let ni ← rewriteInstr tbl ii.instr
  pure (acc.1 ++ [ni], acc.2 ++ [ii.location])

/-- Second linearization pass of `finalize_code`: walk `block_order` again,
`std::mem::take` each block out of `blocks` (leaving `Block::default`),
rewrite each instruction's label operand through the offset table, and
append instruction and location to the two output arrays. -/
def emitBlocks (tbl : List Nat) :
    List Nat → List Block → List Instruction → List Location →
    Except RPanic (List Instruction × List Location)
  | [], _, instrs, locs => .ok (instrs, locs)
  | idx :: rest, blocks, instrs, locs => do
    let b ← idxE blocks idx
    let blocks' ← setE blocks idx Block.default
    let (instrs', locs') ← b.instructions.foldlM (emitStep tbl) (instrs, locs)
    emitBlocks tbl rest blocks' instrs' locs'

/-- `CodeInfo::finalize_code`: run `max_stacksize` (on explicit fuel) and
`cell2arg`, apply `dce` when `optimize > 0`, assert
`block_order.len() == blocks.len()`, then run the two linearization passes
and assemble the `CodeObject`. `none` = the analysis ran out of fuel;
`some (.error _)` = a Rust panic. -/
def finalize_code (g : CodeInfo) (optimize : Nat) (fuel : Nat) :
    Option (Except RPanic CodeObject) :=
  match max_stacksize g fuel with
  | none => none
  | some (.error e) => some (.error e)
  | some (.ok maxStack) =>
    let c2a := cell2arg g
    let g := if 0 < optimize then dce g else g
    some (do
      if g.block_order.length = g.blocks.length then
        let (_num, tbl) ← computeOffsets g.blocks g.block_order
        let (instrs, locs) ← emitBlocks tbl g.block_order g.blocks [] []
        pure
          { flags := g.flags
            posonlyarg_count := g.posonlyarg_count
            arg_count := g.arg_count
            kwonlyarg_count := g.kwonlyarg_count
            source_path := g.source_path
            first_line_number := g.first_line_number
            obj_name := g.obj_name
            max_stacksize := maxStack
            instructions := instrs
            locations := locs
            constants := g.constants
            names := g.name_cache
            varnames := g.varname_cache
            cellvars := g.cellvar_cache
            freevars := g.freevar_cache
            cell2arg := c2a }
      else
        Except.error .assertOrder)

/-! ### Specification-side definitions

These restate quantities the spec talks about (prefix-sum offsets, the
total instruction count, the per-cell-variable mapping rule) directly in
the spec's terms, to be compared with what the code computes. -/

/-- The number of instructions held by block `b` (spec: block instruction
count, keyed by `BlockId`). -/
def sizeAt (g : CodeInfo) (b : Nat) : Nat :=
  (g.blocks.getD b Block.default).instructions.length

/-- Spec-side offset of the block occupying position `k` of `block_order`:
the prefix sum of block instruction counts over `block_order`. -/
def specOffset (g : CodeInfo) (k : Nat) : Nat :=
  ((g.block_order.take k).map (sizeAt g)).sum

/-- Spec-side offset of the block with id `t`: the prefix sum up to `t`'s
position in `block_order`. -/
def specOffsetOf (g : CodeInfo) (t : Nat) : Nat :=
  specOffset g (g.block_order.findIdx (fun x => x = t))

/-- Spec-side branch-operand rewrite: replace a `BlockId` operand by the
absolute index of the first instruction of the target block in the final
flat array. -/
def specRewrite (g : CodeInfo) (i : Instruction) : Instruction :=
  match i.labelArg with
  | some t => { i with labelArg := some (specOffsetOf g t) }
  | none => i

/-- The total number of instructions across all blocks (the spec's `N`). -/
def totalInstructions (g : CodeInfo) : Nat :=
  (g.blocks.map (fun b => b.instructions.length)).sum

/-- The number of instructions contributed by the listed blocks. -/
def sizeSum (blocks : List Block) (l : List Nat) : Nat :=
  (l.map (fun i => (blocks.getD i Block.default).instructions.length)).sum

/-- The branch-operand rewrite as a total function of the offset table
(what `rewriteInstr` computes whenever it succeeds). -/
def rewritePure (tbl : List Nat) (i : Instruction) : Instruction :=
  match i.labelArg with
  | some l => { i with labelArg := some (tbl.getD l 0) }
  | none => i

/-- Spec-side cell-variable mapping rule: the index of the local variable of
the same name whenever that index is below the total formal-parameter
count, and the sentinel `-1` otherwise. -/
def entrySpec (g : CodeInfo) (var : String) : Int :=
  match g.varname_cache.findIdx? (fun s => s = var) with
  | some i => if i < totalArgsOf g then (i : Int) else -1
  | none => -1

/-! ### Concrete block graphs used as test inputs -/

/-- A fixed source location for the test graphs. -/
def loc0 : Location := ⟨1, 0⟩

/-- An instruction pushing one stack value (stack effect `+1`). -/
def iPush : InstructionInfo := ⟨⟨1, 1, none, false⟩, loc0⟩

/-- An instruction popping one stack value (stack effect `-1`). -/
def iPop : InstructionInfo := ⟨⟨-1, -1, none, false⟩, loc0⟩

/-- A return-style unconditional transfer with no operand. -/
def iRet : InstructionInfo := ⟨⟨0, 0, none, true⟩, loc0⟩

/-- An unconditional jump to block `t`. -/
def iJmp (t : Nat) : InstructionInfo := ⟨⟨0, 0, some t, true⟩, loc0⟩

/-- A conditional jump to block `t` (falls through when not taken). -/
def iCjmp (t : Nat) : InstructionInfo := ⟨⟨0, 0, some t, false⟩, loc0⟩

/-- A finished block holding the given instructions. -/
def mkB (l : List InstructionInfo) : Block := ⟨l, true⟩

/-- A `CodeInfo` with the given blocks and block order and empty metadata. -/
def mkG (bs : List Block) (ord : List Nat) : CodeInfo :=
  { flags := ⟨false, false⟩
    posonlyarg_count := 0
    arg_count := 0
    kwonlyarg_count := 0
    source_path := ""
    first_line_number := 1
    obj_name := ""
    blocks := bs
    block_order := ord
    constants := []
    name_cache := []
    varname_cache := []
    cellvar_cache := []
    freevar_cache := [] }

/-- The spec's loop test: `A → B`, `B → C`, `C → A` (back-edge), `C → exit`;
`B` pushes one value and `C` pops it before branching back to `A`. -/
def gLoop : CodeInfo :=
  mkG [mkB [], mkB [iPush], mkB [iPop, iCjmp 0], mkB [iRet]] [0, 1, 2, 3]

/-- Entry block falls through at depth 0 into a block that pushes: the
fall-through successor is first discovered at depth 0. -/
def gDrop : CodeInfo :=
  mkG [mkB [], mkB [iPush, iRet]] [0, 1]

/-- A single empty block: its pass falls through past the end of
`block_order`. -/
def gFall : CodeInfo := mkG [mkB []] [0]

/-- A graph where block 1 (which ends in an unconditional jump) is first
processed at start depth 1 and later re-discovered at start depth 2: block
0 branches to block 3 at depth 2 and to block 1 at depth 1; block 3 jumps
to block 1 at depth 2. The deepest real path (2 pushes in block 0, then
block 1's push) reaches depth 3. -/
def gSeen : CodeInfo :=
  mkG
    [mkB [iPush, iPush, iCjmp 3, iPop, iCjmp 1, iRet],
     mkB [iPush, iJmp 2],
     mkB [iRet],
     mkB [iJmp 1]]
    [0, 1, 2, 3]

/-- A jump whose target is the empty block occupying the last position of
`block_order`. -/
def gTrailing : CodeInfo := mkG [mkB [iJmp 1], mkB []] [0, 1]

/-- A `block_order` of the right length that duplicates block 0 and omits
block 1: not a permutation, but the length assertion holds. -/
def gDup : CodeInfo := mkG [mkB [iRet], mkB [iRet]] [0, 0]

/-- A `block_order` whose length mismatches the block count. -/
def gMis : CodeInfo := mkG [mkB [iRet]] []

/-- A well-formed two-block graph: block 0 pushes one value and falls
through into block 1, which returns. -/
def gOk : CodeInfo := mkG [mkB [iPush], mkB [iRet]] [0, 1]

/-- The finalized object `finalize_code` produces for `gOk`. -/
def objOk : CodeObject :=
  { flags := ⟨false, false⟩
    posonlyarg_count := 0
    arg_count := 0
    kwonlyarg_count := 0
    source_path := ""
    first_line_number := 1
    obj_name := ""
    max_stacksize := 1
    instructions := [⟨1, 1, none, false⟩, ⟨0, 0, none, true⟩]
    locations := [loc0, loc0]
    constants := []
    names := []
    varnames := []
    cellvars := []
    freevars := []
    cell2arg := none }

/-- The finalized object `finalize_code` produces for `gTrailing`: one
instruction whose rewritten branch operand equals the array length. -/
def objTrailing : CodeObject :=
  { objOk with
    max_stacksize := 0
    instructions := [⟨0, 0, some 1, true⟩]
    locations := [loc0] }

/-- The finalized object `finalize_code` produces for the duplicated order
`gDup`: block 0's single instruction appears once, block 1's never. -/
def objDup : CodeObject :=
  { objOk with
    max_stacksize := 0
    instructions := [⟨0, 0, none, true⟩]
    locations := [loc0] }

/-- The cell-mapping test graph: locals `[a, b]` with `arg_count = 2` and
the given cell variables. -/
def gCell (cells : List String) : CodeInfo :=
  { mkG [] [] with arg_count := 2, varname_cache := ["a", "b"], cellvar_cache := cells }

/-- The truncation test graph: a single block `[push, return, pop]` with an
unreachable `pop` after the `return`. -/
def gUndead : CodeInfo := mkG [mkB [iPush, iRet, iPop]] [0]

/-- What `finalize_code gUndead 0` produces: with `optimize = 0` the
unreachable `pop` is kept. -/
def objUndead0 : CodeObject :=
  { objOk with
    instructions := [⟨1, 1, none, false⟩, ⟨0, 0, none, true⟩, ⟨-1, -1, none, false⟩]
    locations := [loc0, loc0, loc0] }

/-- What `finalize_code gUndead 1` produces: with `optimize > 0` the block
is truncated to `[push, return]`. -/
def objUndead1 : CodeObject :=
  { objOk with
    instructions := [⟨1, 1, none, false⟩, ⟨0, 0, none, true⟩]
    locations := [loc0, loc0] }

/-! ### Claim theorems: concrete evaluations -/

/-- C2: on the spec's four-block loop test (`A→B`, `B→C`, `C→A` back-edge,
`C→exit`, with `B` pushing one value and `C` popping it), `max_stacksize`
terminates in bounded work but reports maximum depth `0`, not the claimed
`1`: every start depth is initialized to `0` (`vec![0; ..]`, ir.rs:171), so
the fall-through discovery of `B` at depth `0` is not strictly greater than
the recorded `0` and blocks `B`, `C`, `exit` are never enqueued. -/
theorem c2_loop_test_eval : max_stacksize gLoop 50 = some (.ok 0) := rfl

/-- C3: the recorded start depths are initialized to `0`, not to
`-infinity`: in `gDrop` the entry block falls through at depth `0` into
block 1 (which pushes a value), the discovered depth `0` is not strictly
greater than the initial `0`, block 1 is never enqueued even though it is
reachable, and the analysis reports `0` instead of `1`. -/
theorem c3_unreached_block_eval : max_stacksize gDrop 50 = some (.ok 0) := rfl

/-- C8: the `seen` marker is NOT reset on every way a block's forward pass
can end. First conjunct: processing block 1 of `gSeen` (popped as a branch
target, start depth `1`) ends at its unconditional jump, and in the
resulting state `seen[1]` is still `true` while block 1 has been re-enqueued
with the strictly greater start depth `2`. Second conjunct: the revisit is
therefore skipped and the whole analysis reports `2`, although the path
through block 0's two pushes and block 1's push reaches depth `3`. -/
theorem c8_seen_not_reset_eval :
    loopBody gSeen 1 UMAX ⟨2, [(3, UMAX)], [0, 1, 0, 2], [true, false, false, false]⟩
        = .ok ⟨2, [(2, UMAX), (3, UMAX)], [0, 1, 2, 2], [true, true, false, false]⟩
      ∧ max_stacksize gSeen 50 = some (.ok 2) :=
  ⟨rfl, rfl⟩

/-- C7 counterexample: `gFall` satisfies the input contract (`block_order`
is a permutation of all block indices and there is no branch operand), yet
`max_stacksize` panics — its single block falls through past the last
position of `block_order`, and `finalize_code` propagates the panic instead
of completing. -/
theorem c7_cex :
    max_stacksize gFall 50 = some (.error .fallOff)
      ∧ finalize_code gFall 0 50 = some (.error .fallOff)
      ∧ gFall.block_order.Perm (List.range gFall.blocks.length) :=
  ⟨rfl, rfl, List.Perm.refl _⟩

/-- C10 counterexample: `gDup`'s `block_order` `[0, 0]` is not a permutation
of the block indices `{0, 1}`, but its length matches the block count, so
the assertion passes and `finalize_code` completes and produces a
`CodeObject` (block 0's instruction emitted once, block 1's never). -/
theorem c10_cex :
    finalize_code gDup 0 50 = some (.ok objDup)
      ∧ ¬ gDup.block_order.Perm (List.range gDup.blocks.length) :=
  ⟨rfl, fun h => absurd (h.mem_iff.mpr (show (1 : Nat) ∈ List.range 2 by decide))
    (show (1 : Nat) ∉ [0, 0] by decide)⟩

/-- C1 counterexample: in `gTrailing` the only branch targets the empty
block occupying the last position of `block_order`; its rewritten operand
is `1`, which equals the length of the finalized one-instruction array and
hence is not a valid index into it. -/
theorem c1_cex :
    finalize_code gTrailing 0 50 = some (.ok objTrailing)
      ∧ objTrailing.instructions.map Instruction.label_arg = [some 1]
      ∧ ¬ (1 < objTrailing.instructions.length) :=
  ⟨rfl, rfl, by decide⟩

/-! ### The closure cell mapper (C4) -/

/-- Whether a cell variable sets the `found_cellarg` flag: its name occurs
in the local-variable cache at an index below the formal-parameter count. -/
def flagSpec (g : CodeInfo) (var : String) : Bool :=
  match g.varname_cache.findIdx? (fun s => s = var) with
  | some i => decide (i < totalArgsOf g)
  | none => false

theorem cellStep_eq (g : CodeInfo) (acc : Bool × List Int) (v : String) :
    cellStep g acc v = (acc.1 || flagSpec g v, acc.2 ++ [entrySpec g v]) := by
  unfold cellStep flagSpec entrySpec
  cases hf : g.varname_cache.findIdx? (fun s => s = v) with
  | none => simp
  | some i =>
    by_cases hi : i < totalArgsOf g <;> simp [hi]

theorem cell2arg_foldl (g : CodeInfo) :
    ∀ (l : List String) (fl : Bool) (out : List Int),
      l.foldl (cellStep g) (fl, out)
      = (fl || l.any (flagSpec g), out ++ l.map (entrySpec g)) := by
  intro l
  induction l with
  | nil => intro fl out; simp
  | cons v rest ih =>
    intro fl out
    rw [List.foldl_cons, cellStep_eq, ih]
    simp [Bool.or_assoc]

theorem flagSpec_false_iff (g : CodeInfo) (v : String) :
    flagSpec g v = false ↔ entrySpec g v = -1 := by
  unfold flagSpec entrySpec
  cases hf : g.varname_cache.findIdx? (fun s => s = v) with
  | none => simp
  | some i =>
    by_cases hi : i < totalArgsOf g
    · simp only [hi, if_true, decide_eq_false_iff_not, not_true_eq_false, false_iff]
      intro h
      omega
    · simp [hi]

/-- C4: `cell2arg` maps each cell variable, in interned order, to the index
of the local variable of the same name when that index is below the total
formal-parameter count and to `-1` otherwise (`entrySpec`), and returns no
table exactly when there are no cell variables or every entry would be
`-1`; on locals `[a, b]` with `arg_count = 2`, cell variables `[b, c]`
yield `[1, -1]`, and `[]` or `[c]` yield no table. -/
theorem c4_cell2arg :
    (∀ g : CodeInfo,
      (∀ t, cell2arg g = some t → t = g.cellvar_cache.map (entrySpec g))
      ∧ (cell2arg g = none ↔
          g.cellvar_cache = [] ∨ ∀ v ∈ g.cellvar_cache, entrySpec g v = -1))
    ∧ cell2arg (gCell ["b", "c"]) = some [1, -1]
    ∧ cell2arg (gCell []) = none
    ∧ cell2arg (gCell ["c"]) = none := by
  refine ⟨fun g => ?_, rfl, rfl, rfl⟩
  have hfold := cell2arg_foldl g g.cellvar_cache false []
  have hcell : cell2arg g =
      if g.cellvar_cache.isEmpty then none
      else if g.cellvar_cache.any (flagSpec g) then
        some (g.cellvar_cache.map (entrySpec g))
      else none := by
    unfold cell2arg
    rw [hfold]
    simp
  constructor
  · intro t ht
    rw [hcell] at ht
    by_cases he : g.cellvar_cache.isEmpty
    · rw [if_pos he] at ht
      exact absurd ht (by simp)
    · rw [if_neg he] at ht
      by_cases ha : g.cellvar_cache.any (flagSpec g)
      · rw [if_pos ha] at ht
        exact (Option.some.inj ht).symm
      · rw [if_neg ha] at ht
        exact absurd ht (by simp)
  · rw [hcell]
    by_cases he : g.cellvar_cache.isEmpty
    · rw [if_pos he]
      simp [List.isEmpty_iff.mp he]
    · rw [if_neg he]
      by_cases ha : g.cellvar_cache.any (flagSpec g)
      · rw [if_pos ha]
        constructor
        · intro h
          exact absurd h (by simp)
        · rintro (h | h)
          · exact absurd (List.isEmpty_iff.mpr h) he
          · rcases List.any_eq_true.mp ha with ⟨v, hv, hfl⟩
            rw [(flagSpec_false_iff g v).mpr (h v hv)] at hfl
            exact absurd hfl (by simp)
      · rw [if_neg ha]
        have hall : ∀ v ∈ g.cellvar_cache, flagSpec g v = false := by
          intro v hv
          cases hb : flagSpec g v
          · rfl
          · exact absurd (List.any_eq_true.mpr ⟨v, hv, hb⟩) ha
        exact iff_of_true rfl
          (Or.inr fun v hv => (flagSpec_false_iff g v).mp (hall v hv))

/-- C4 witness: the general characterization applied to the concrete
cell-mapping test graph, the hypothesis discharged by evaluation. -/
theorem c4_cell2arg_witness :
    ([1, -1] : List Int)
      = (gCell ["b", "c"]).cellvar_cache.map (entrySpec (gCell ["b", "c"])) :=
  (c4_cell2arg.1 (gCell ["b", "c"])).1 [1, -1] rfl

/-! ### Dead-code truncation is invisible to the stack-depth walk (C6, C9) -/

theorem dceBlock_instructions (b : Block) :
    (dceBlock b).instructions = truncUncond b.instructions := by
  unfold dceBlock truncUncond
  cases b.instructions.findIdx? (fun i => i.instr.unconditional_branch) <;> rfl

theorem truncUncond_nil : truncUncond [] = [] := rfl

theorem truncUncond_cons_pos (x : InstructionInfo) (l : List InstructionInfo)
    (h : x.instr.unconditional_branch = true) : truncUncond (x :: l) = [x] := by
  unfold truncUncond
  rw [List.findIdx?_cons, h]
  rfl

theorem truncUncond_cons_neg (x : InstructionInfo) (l : List InstructionInfo)
    (h : x.instr.unconditional_branch = false) :
    truncUncond (x :: l) = x :: truncUncond l := by
  unfold truncUncond
  rw [List.findIdx?_cons, h]
  simp only [Bool.false_eq_true, if_false, List.findIdx?_succ]
  cases l.findIdx? (fun i => i.instr.unconditional_branch) <;> simp

theorem walkInstrs_trunc (l : List InstructionInfo) :
    ∀ (d : Int) (st : WalkSt), walkInstrs (truncUncond l) d st = walkInstrs l d st := by
  induction l with
  | nil => intro d st; rfl
  | cons x rest ih =>
    intro d st
    cases hu : x.instr.unconditional_branch with
    | true =>
      rw [truncUncond_cons_pos x rest hu]
      unfold walkInstrs
      simp only [hu, if_true]
    | false =>
      rw [truncUncond_cons_neg x rest hu]
      unfold walkInstrs
      simp only [hu, Bool.false_eq_true, if_false]
      cases hlab : x.instr.label_arg with
      | none =>
        simp only [hlab]
        exact ih _ _
      | some t =>
        simp only [hlab]
        cases hsp : stackdepth_push st.stack st.startdepths (t, UMAX)
            (d + x.instr.stack_effect true) with
        | error e => rfl
        | ok p => exact ih _ _

theorem idxE_map {α β : Type} (f : α → β) (l : List α) (i : Nat) :
    idxE (l.map f) i = (idxE l i).map f := by
  unfold idxE
  rw [List.get?_eq_getElem?, List.get?_eq_getElem?, List.getElem?_map]
  cases l[i]? <;> rfl

theorem dce_block_order (g : CodeInfo) : (dce g).block_order = g.block_order := rfl

theorem dce_blocks_length (g : CodeInfo) : (dce g).blocks.length = g.blocks.length := by
  unfold dce
  exact List.length_map _ _

theorem loopBody_dce (g : CodeInfo) (b bo : Nat) (st : LoopSt) :
    loopBody (dce g) b bo st = loopBody g b bo st := by
  unfold loopBody
  cases hseen : idxE st.seen b with
  | error e => rfl
  | ok sb =>
    cases sb with
    | true => rfl
    | false =>
      cases hset : setE st.seen b true with
      | error e => rfl
      | ok seen1 =>
        cases hd : idxE st.startdepths b with
        | error e => rfl
        | ok d0 =>
          have hblocks : idxE (dce g).blocks b = (idxE g.blocks b).map dceBlock :=
            idxE_map dceBlock g.blocks b
          cases hblk : idxE g.blocks b with
          | error e => rw [hblocks, hblk]; rfl
          | ok blk =>
            rw [hblocks, hblk]
            show (walkInstrs (dceBlock blk).instructions d0 _ >>= _) = _
            rw [dceBlock_instructions, walkInstrs_trunc]
            rfl

theorem maxStacksizeLoop_dce (g : CodeInfo) :
    ∀ (fuel : Nat) (st : LoopSt),
      maxStacksizeLoop (dce g) fuel st = maxStacksizeLoop g fuel st := by
  intro fuel
  induction fuel with
  | zero => intro st; rfl
  | succ n ih =>
    intro st
    obtain ⟨md, stk, sd, sn⟩ := st
    cases stk with
    | nil => rfl
    | cons p rest =>
      obtain ⟨b1, b2⟩ := p
      show (match loopBody (dce g) b1 b2 ⟨md, rest, sd, sn⟩ with
            | Except.error e => some (Except.error e)
            | Except.ok st' => maxStacksizeLoop (dce g) n st') =
          (match loopBody g b1 b2 ⟨md, rest, sd, sn⟩ with
            | Except.error e => some (Except.error e)
            | Except.ok st' => maxStacksizeLoop g n st')
      rw [loopBody_dce]
      cases loopBody g b1 b2 ⟨md, rest, sd, sn⟩ with
      | error e => rfl
      | ok st' => exact ih st'

theorem max_stacksize_dce (g : CodeInfo) (fuel : Nat) :
    max_stacksize (dce g) fuel = max_stacksize g fuel := by
  unfold max_stacksize
  rw [dce_blocks_length, maxStacksizeLoop_dce]

/-- C9: the maximum stack depth computed by `max_stacksize` is unchanged by
dead-code truncation: for every `BlockGraph` and any fuel, running the
analysis on the graph after `dce` has truncated every block at its first
unconditional control transfer gives exactly the result of running it on
the original graph (the analysis itself never looks past the first
unconditional transfer of a block). -/
theorem c9_dce_preserves_depth :
    ∀ (g : CodeInfo) (fuel : Nat), max_stacksize (dce g) fuel = max_stacksize g fuel :=
  fun g fuel => max_stacksize_dce g fuel

theorem findIdx?_first {α : Type} (p : α → Bool) :
    ∀ (l : List α) (n : Nat) (a : α),
      l.get? n = some a → p a = true →
      (∀ m b, m < n → l.get? m = some b → p b = false) →
      l.findIdx? p = some n := by
  intro l
  induction l with
  | nil => intro n a ha; simp at ha
  | cons x rest ih =>
    intro n a ha hp hmin
    cases n with
    | zero =>
      rw [show x = a from Option.some.inj ha] at *
      rw [List.findIdx?_cons, hp]
      rfl
    | succ k =>
      have hx : p x = false := hmin 0 x (Nat.succ_pos k) rfl
      rw [List.findIdx?_cons, hx]
      simp only [Bool.false_eq_true, if_false, List.findIdx?_succ]
      rw [ih k a ha hp (fun m b hm hb => hmin (m + 1) b (Nat.succ_lt_succ hm) hb)]
      rfl

theorem cell2arg_dce (g : CodeInfo) : cell2arg (dce g) = cell2arg g := rfl

/-- C6: dead-code truncation runs exactly when `optimize > 0`, strictly
before linearization, and truncates every block independently at its first
unconditional control transfer. Conjuncts: (1) a block with no
unconditional transfer is unchanged; (2) a block whose first unconditional
transfer sits at position `n` is truncated to its first `n + 1`
instructions; (3) with `optimize > 0`, `finalize_code` equals finalization
of the pre-truncated graph with `optimize = 0` (truncation happens before
linearization and nothing else depends on `optimize`); (4)–(5) a
`[push, return, pop]` block keeps its unreachable `pop` at `optimize = 0`
and is truncated to `[push, return]` at `optimize = 1`. -/
theorem c6_dce_truncation :
    (∀ b : Block,
      (∀ ii ∈ b.instructions, ii.instr.unconditional_branch = false) → dceBlock b = b)
    ∧ (∀ (b : Block) (n : Nat) (ii : InstructionInfo),
        b.instructions.get? n = some ii →
        ii.instr.unconditional_branch = true →
        (∀ m ii', m < n → b.instructions.get? m = some ii' →
          ii'.instr.unconditional_branch = false) →
        (dceBlock b).instructions = b.instructions.take (n + 1))
    ∧ (∀ (g : CodeInfo) (opt fuel : Nat), 0 < opt →
        finalize_code g opt fuel = finalize_code (dce g) 0 fuel)
    ∧ finalize_code gUndead 0 50 = some (.ok objUndead0)
    ∧ finalize_code gUndead 1 50 = some (.ok objUndead1) := by
  refine ⟨?_, ?_, ?_, rfl, rfl⟩
  · intro b hall
    unfold dceBlock
    rw [List.findIdx?_eq_none_iff.mpr hall]
  · intro b n ii hget hu hmin
    unfold dceBlock
    rw [findIdx?_first _ b.instructions n ii hget hu hmin]
  · intro g opt fuel h
    unfold finalize_code
    rw [max_stacksize_dce]
    cases max_stacksize g fuel with
    | none => rfl
    | some r =>
      cases r with
      | error e => rfl
      | ok v =>
        rw [if_pos h, if_neg (lt_irrefl 0)]
        rfl

/-- C6 witness: the no-transfer conjunct applied to a concrete block with
no unconditional transfer, the hypothesis discharged by evaluation. -/
theorem c6_dce_truncation_witness : dceBlock (mkB [iPush]) = mkB [iPush] :=
  c6_dce_truncation.1 (mkB [iPush]) (by decide)

/-! ### The length assertion (C10) -/

theorem finalize_lengths (g : CodeInfo) (opt : Nat) :
    ((if 0 < opt then dce g else g).block_order.length
        = (if 0 < opt then dce g else g).blocks.length)
      ↔ g.block_order.length = g.blocks.length := by
  by_cases ho : 0 < opt
  · rw [if_pos ho, dce_blocks_length, dce_block_order]
  · rw [if_neg ho]

/-- C10 (amended): `finalize_code` fails fatally, producing no output, when
`block_order`'s length mismatches the block count; a `block_order` of the
right length that duplicates an in-range `BlockId` (and so misses another)
is not detected. This theorem is the surviving half: under a length
mismatch, no `CodeObject` is ever produced, for any fuel and any
optimization level. -/
theorem c10_assert_length (g : CodeInfo)
    (h : g.block_order.length ≠ g.blocks.length) :
    ∀ (fuel opt : Nat) (c : CodeObject), finalize_code g opt fuel ≠ some (.ok c) := by
  intro fuel opt c
  unfold finalize_code
  cases hms : max_stacksize g fuel with
  | none => exact fun hc => Option.noConfusion hc
  | some r =>
    cases r with
    | error e =>
      intro hc
      exact Except.noConfusion (Option.some.inj hc)
    | ok v =>
      intro hc
      have hcond : ¬ ((if 0 < opt then dce g else g).block_order.length
          = (if 0 < opt then dce g else g).blocks.length) :=
        fun hcc => h ((finalize_lengths g opt).mp hcc)
      have h2 := Option.some.inj hc
      rw [if_neg hcond] at h2
      exact Except.noConfusion h2

/-- C10 witness: a graph with one block and an empty `block_order` never
yields a `CodeObject`. -/
theorem c10_assert_length_witness : finalize_code gMis 0 50 ≠ some (.ok objDup) :=
  c10_assert_length gMis (by decide) 50 0 objDup

/-! ### Linearization: the offset table is the prefix sum (C1, C5) -/

theorem idxE_ok_iff {α : Type} (l : List α) (i : Nat) (a : α) :
    idxE l i = .ok a ↔ l.get? i = some a := by
  unfold idxE
  cases l.get? i <;> simp

theorem idxE_ok_getD {α : Type} (l : List α) (i : Nat) (d : α) (h : i < l.length) :
    idxE l i = .ok (l.getD i d) := by
  rw [idxE_ok_iff, List.get?_eq_getElem?, List.getElem?_eq_getElem h,
    List.getD_eq_getElem l d h]

theorem setE_ok {α : Type} (l : List α) (i : Nat) (a : α) (h : i < l.length) :
    setE l i a = .ok (l.set i a) := by
  unfold setE
  rw [if_pos h]

theorem sizeSum_nil (blocks : List Block) : sizeSum blocks [] = 0 := rfl

theorem sizeSum_cons (blocks : List Block) (i : Nat) (l : List Nat) :
    sizeSum blocks (i :: l)
      = (blocks.getD i Block.default).instructions.length + sizeSum blocks l := by
  unfold sizeSum
  rw [List.map_cons, List.sum_cons]

theorem offsetStep_ok (blocks : List Block) (n0 : Nat) (t0 : List Nat) (idx : Nat)
    (hidx : idx < blocks.length) (hlen : t0.length = blocks.length) :
    offsetStep blocks (n0, t0) idx
      = .ok (n0 + (blocks.getD idx Block.default).instructions.length, t0.set idx n0) := by
  unfold offsetStep
  rw [idxE_ok_getD blocks idx Block.default hidx]
  show (setE t0 idx n0 >>= fun tbl =>
    pure (n0 + (blocks.getD idx Block.default).instructions.length, tbl)) = _
  rw [setE_ok t0 idx n0 (hlen ▸ hidx)]
  rfl

theorem computeOffsets_fold (blocks : List Block) :
    ∀ (order : List Nat) (n0 : Nat) (t0 : List Nat),
      order.Nodup → (∀ i ∈ order, i < blocks.length) → t0.length = blocks.length →
      ∃ tbl : List Nat,
        order.foldlM (offsetStep blocks) (n0, t0) = .ok (n0 + sizeSum blocks order, tbl)
        ∧ tbl.length = t0.length
        ∧ (∀ j, j ∉ order → tbl.get? j = t0.get? j)
        ∧ (∀ k, k < order.length →
            tbl.get? (order.getD k 0) = some (n0 + sizeSum blocks (order.take k))) := by
  intro order
  induction order with
  | nil =>
    intro n0 t0 _ _ _
    exact ⟨t0, by rw [sizeSum_nil, Nat.add_zero]; rfl, rfl, fun j _ => rfl,
      fun k hk => absurd hk (by simp)⟩
  | cons idx rest ih =>
    intro n0 t0 hnd hin hlen
    have hidx : idx < blocks.length := hin idx (List.mem_cons_self idx rest)
    have hnd' : rest.Nodup := (List.nodup_cons.mp hnd).2
    have hni : idx ∉ rest := (List.nodup_cons.mp hnd).1
    have hlen' : (t0.set idx n0).length = blocks.length := by
      rw [List.length_set]; exact hlen
    obtain ⟨tbl, hfold, htlen, huntouched, hpos⟩ :=
      ih (n0 + (blocks.getD idx Block.default).instructions.length) (t0.set idx n0)
        hnd' (fun i hi => hin i (List.mem_cons_of_mem idx hi)) hlen'
    refine ⟨tbl, ?_, by rw [htlen, List.length_set], ?_, ?_⟩
    · rw [List.foldlM_cons, offsetStep_ok blocks n0 t0 idx hidx hlen]
      show rest.foldlM (offsetStep blocks)
          (n0 + (blocks.getD idx Block.default).instructions.length, t0.set idx n0) = _
      rw [hfold, sizeSum_cons]
      congr 2
      omega
    · intro j hj
      have hj1 : j ≠ idx := fun he => hj (he ▸ List.mem_cons_self idx rest)
      have hj2 : j ∉ rest := fun hm => hj (List.mem_cons_of_mem idx hm)
      rw [huntouched j hj2, List.get?_eq_getElem?, List.get?_eq_getElem?,
        List.getElem?_set_ne (Ne.symm hj1)]
    · intro k hk
      cases k with
      | zero =>
        rw [show (idx :: rest).getD 0 0 = idx from rfl, huntouched idx hni,
          List.get?_eq_getElem?, List.getElem?_set_self (hlen ▸ hidx)]
        rw [show (idx :: rest).take 0 = [] from rfl, sizeSum_nil, Nat.add_zero]
      | succ m =>
        have hm : m < rest.length := by simpa using hk
        rw [show (idx :: rest).getD (m + 1) 0 = rest.getD m 0 from rfl, hpos m hm,
          List.take_succ_cons, sizeSum_cons]
        congr 1
        omega

theorem getD_set_ne {α : Type} (l : List α) (i j : Nat) (a d : α) (h : i ≠ j) :
    (l.set i a).getD j d = l.getD j d := by
  rw [List.getD_eq_getD_get?, List.getD_eq_getD_get?, List.get?_eq_getElem?,
    List.get?_eq_getElem?, List.getElem?_set_ne h]

theorem rewriteInstr_ok (tbl : List Nat) (i v : Instruction)
    (h : rewriteInstr tbl i = .ok v) :
    (∀ t, i.labelArg = some t → t < tbl.length) ∧ v = rewritePure tbl i := by
  obtain ⟨ef, eb, la, un⟩ := i
  cases la with
  | none =>
    have hv : v = ⟨ef, eb, none, un⟩ := (Except.ok.inj h).symm
    exact ⟨fun t ht => Option.noConfusion ht, by rw [hv]; rfl⟩
  | some l =>
    have hre : rewriteInstr tbl ⟨ef, eb, some l, un⟩
        = (idxE tbl l >>= fun off => pure (⟨ef, eb, some off, un⟩ : Instruction)) := rfl
    rw [hre] at h
    cases hix : idxE tbl l with
    | error e =>
      rw [hix] at h
      exact Except.noConfusion h
    | ok off =>
      rw [hix] at h
      have hv : v = ⟨ef, eb, some off, un⟩ := (Except.ok.inj h).symm
      have hi : tbl.get? l = some off := (idxE_ok_iff tbl l off).mp hix
      rw [List.get?_eq_getElem?] at hi
      obtain ⟨hlt, hoff⟩ := List.getElem?_eq_some_iff.mp hi
      have hgetD : tbl.getD l 0 = off := by
        rw [List.getD_eq_getElem tbl 0 hlt, hoff]
      refine ⟨fun t ht => ?_, ?_⟩
      · cases Option.some.inj ht
        exact hlt
      · rw [hv]
        show (⟨ef, eb, some off, un⟩ : Instruction) = ⟨ef, eb, some (tbl.getD l 0), un⟩
        rw [hgetD]

theorem emitFold_ok (tbl : List Nat) :
    ∀ (l : List InstructionInfo) (a1 : List Instruction) (a2 : List Location)
      (out : List Instruction × List Location),
      l.foldlM (emitStep tbl) (a1, a2) = .ok out →
      (∀ ii ∈ l, ∀ t, ii.instr.labelArg = some t → t < tbl.length)
      ∧ out.1 = a1 ++ l.map (fun ii => rewritePure tbl ii.instr)
      ∧ out.2 = a2 ++ l.map (fun ii => ii.location) := by
  intro l
  induction l with
  | nil =>
    intro a1 a2 out h
    have he : (a1, a2) = out := Except.ok.inj h
    refine ⟨by simp, ?_, ?_⟩ <;> simp [← he]
  | cons ii rest ih =>
    intro a1 a2 out h
    rw [List.foldlM_cons] at h
    cases hr : rewriteInstr tbl ii.instr with
    | error e =>
      rw [show emitStep tbl (a1, a2) ii = .error e by unfold emitStep; rw [hr]; rfl] at h
      exact Except.noConfusion h
    | ok ni =>
      rw [show emitStep tbl (a1, a2) ii = .ok (a1 ++ [ni], a2 ++ [ii.location]) by
        unfold emitStep; rw [hr]; rfl] at h
      obtain ⟨hlab, h1, h2⟩ := ih (a1 ++ [ni]) (a2 ++ [ii.location]) out h
      obtain ⟨hb, hni⟩ := rewriteInstr_ok tbl ii.instr ni hr
      refine ⟨?_, ?_, ?_⟩
      · intro jj hjj t ht
        rcases List.mem_cons.mp hjj with he | hm
        · exact hb t (he ▸ ht)
        · exact hlab jj hm t ht
      · rw [h1, hni]
        simp
      · rw [h2]
        simp

theorem emitBlocks_cons_eq (tbl : List Nat) (idx : Nat) (rest : List Nat)
    (blocks : List Block) (a1 : List Instruction) (a2 : List Location)
    (hidx : idx < blocks.length) :
    emitBlocks tbl (idx :: rest) blocks a1 a2
      = ((blocks.getD idx Block.default).instructions.foldlM (emitStep tbl) (a1, a2)
          >>= fun p => emitBlocks tbl rest (blocks.set idx Block.default) p.1 p.2) := by
  show (do
      let b ← idxE blocks idx
      let blocks' ← setE blocks idx Block.default
      let (instrs', locs') ← b.instructions.foldlM (emitStep tbl) (a1, a2)
      emitBlocks tbl rest blocks' instrs' locs') = _
  rw [idxE_ok_getD blocks idx Block.default hidx]
  show (do
      let blocks' ← setE blocks idx Block.default
      let (instrs', locs') ←
        (blocks.getD idx Block.default).instructions.foldlM (emitStep tbl) (a1, a2)
      emitBlocks tbl rest blocks' instrs' locs') = _
  rw [setE_ok blocks idx Block.default hidx]
  show ((blocks.getD idx Block.default).instructions.foldlM (emitStep tbl) (a1, a2)
      >>= fun p => emitBlocks tbl rest (blocks.set idx Block.default) p.1 p.2) = _
  rfl

theorem emitBlocks_ok (tbl : List Nat) :
    ∀ (order : List Nat) (blocks : List Block) (a1 : List Instruction)
      (a2 : List Location) (out : List Instruction × List Location),
      order.Nodup → (∀ i ∈ order, i < blocks.length) →
      emitBlocks tbl order blocks a1 a2 = .ok out →
      (∀ idx ∈ order, ∀ ii ∈ (blocks.getD idx Block.default).instructions,
        ∀ t, ii.instr.labelArg = some t → t < tbl.length)
      ∧ out.1 = a1 ++ (order.map (fun idx =>
          (blocks.getD idx Block.default).instructions.map
            (fun ii => rewritePure tbl ii.instr))).flatten
      ∧ out.2 = a2 ++ (order.map (fun idx =>
          (blocks.getD idx Block.default).instructions.map
            (fun ii => ii.location))).flatten := by
  intro order
  induction order with
  | nil =>
    intro blocks a1 a2 out _ _ h
    have he : (a1, a2) = out := Except.ok.inj h
    refine ⟨by simp, ?_, ?_⟩ <;> simp [← he]
  | cons idx rest ih =>
    intro blocks a1 a2 out hnd hin h
    have hidx : idx < blocks.length := hin idx (List.mem_cons_self idx rest)
    have hni : idx ∉ rest := (List.nodup_cons.mp hnd).1
    rw [emitBlocks_cons_eq tbl idx rest blocks a1 a2 hidx] at h
    cases hf : (blocks.getD idx Block.default).instructions.foldlM (emitStep tbl) (a1, a2) with
    | error e =>
      rw [hf] at h
      exact Except.noConfusion h
    | ok p =>
      rw [hf] at h
      obtain ⟨hlabs, hrest1, hrest2⟩ :=
        ih (blocks.set idx Block.default) p.1 p.2 out (List.nodup_cons.mp hnd).2
          (fun i hi => by rw [List.length_set]; exact hin i (List.mem_cons_of_mem idx hi)) h
      obtain ⟨hblab, hp1, hp2⟩ := emitFold_ok tbl _ a1 a2 p hf
      have hcongr : ∀ (f : Block → List Instruction),
          rest.map (fun j => f ((blocks.set idx Block.default).getD j Block.default))
            = rest.map (fun j => f (blocks.getD j Block.default)) := by
        intro f
        refine List.map_congr_left (fun j hj => ?_)
        rw [getD_set_ne blocks idx j Block.default Block.default
          (fun he => hni (he ▸ hj))]
      have hcongr2 : ∀ (f : Block → List Location),
          rest.map (fun j => f ((blocks.set idx Block.default).getD j Block.default))
            = rest.map (fun j => f (blocks.getD j Block.default)) := by
        intro f
        refine List.map_congr_left (fun j hj => ?_)
        rw [getD_set_ne blocks idx j Block.default Block.default
          (fun he => hni (he ▸ hj))]
      refine ⟨?_, ?_, ?_⟩
      · intro jdx hjdx ii hii t ht
        rcases List.mem_cons.mp hjdx with he | hm
        · exact hblab ii (he ▸ hii) t ht
        · refine hlabs jdx hm ii ?_ t ht
          rw [getD_set_ne blocks idx jdx Block.default Block.default
            (fun he => hni (he ▸ hm))]
          exact hii
      · rw [hrest1, hp1,
          hcongr (fun b => b.instructions.map (fun ii => rewritePure tbl ii.instr))]
        simp
      · rw [hrest2, hp2, hcongr2 (fun b => b.instructions.map (fun ii => ii.location))]
        simp

theorem except_bind_ok {ε α β : Type} (x : Except ε α) (f : α → Except ε β) (b : β)
    (h : (x >>= f) = .ok b) : ∃ a, x = .ok a ∧ f a = .ok b := by
  cases x with
  | error e => exact Except.noConfusion h
  | ok a => exact ⟨a, rfl, h⟩

theorem map_getD_range {α : Type} (l : List α) (d : α) :
    (List.range l.length).map (fun i => l.getD i d) = l := by
  refine List.ext_getElem (by simp) (fun n h1 h2 => ?_)
  rw [List.getElem_map, List.getElem_range]
  exact List.getD_eq_getElem l d h2

theorem sizeSum_perm (g : CodeInfo) (order : List Nat)
    (hperm : order.Perm (List.range g.blocks.length)) :
    sizeSum g.blocks order = totalInstructions g := by
  unfold sizeSum totalInstructions
  rw [List.Perm.sum_eq
    (hperm.map (fun i => (g.blocks.getD i Block.default).instructions.length))]
  have hr : (List.range g.blocks.length).map
        (fun i => (g.blocks.getD i Block.default).instructions.length)
      = g.blocks.map (fun b => b.instructions.length) := by
    conv_rhs => rw [← map_getD_range g.blocks Block.default]
    rw [List.map_map]
    rfl
  rw [hr]

theorem finalize_ok_parts (g : CodeInfo) (opt fuel : Nat) (c : CodeObject)
    (hok : finalize_code g opt fuel = some (.ok c)) :
    ∃ (v : Nat) (num : Nat) (tbl : List Nat),
      max_stacksize g fuel = some (.ok v)
      ∧ computeOffsets (if 0 < opt then dce g else g).blocks
          (if 0 < opt then dce g else g).block_order = .ok (num, tbl)
      ∧ emitBlocks tbl (if 0 < opt then dce g else g).block_order
          (if 0 < opt then dce g else g).blocks [] [] = .ok (c.instructions, c.locations)
      ∧ c.max_stacksize = v ∧ c.cell2arg = cell2arg g := by
  unfold finalize_code at hok
  cases hms : max_stacksize g fuel with
  | none =>
    rw [hms] at hok
    exact Option.noConfusion hok
  | some r =>
    rw [hms] at hok
    cases r with
    | error e => exact Except.noConfusion (Option.some.inj hok)
    | ok v =>
      have h2 := Option.some.inj hok
      by_cases hcond : (if 0 < opt then dce g else g).block_order.length
          = (if 0 < opt then dce g else g).blocks.length
      · rw [if_pos hcond] at h2
        obtain ⟨p, hco, h3⟩ := except_bind_ok _ _ _ h2
        obtain ⟨num, tbl⟩ := p
        obtain ⟨q, hem, h4⟩ := except_bind_ok _ _ _ h3
        obtain ⟨instrs, locs⟩ := q
        have hc : c = _ := (Except.ok.inj h4).symm
        subst hc
        exact ⟨v, num, tbl, rfl, hco, hem, rfl, rfl⟩
      · rw [if_neg hcond] at h2
        exact Except.noConfusion h2

theorem flatten_blockmap_length {β : Type} (g2 : CodeInfo) (f : InstructionInfo → β) :
    ((g2.block_order.map (fun idx =>
        (g2.blocks.getD idx Block.default).instructions.map f)).flatten).length
      = sizeSum g2.blocks g2.block_order := by
  rw [List.length_flatten, List.map_map]
  unfold sizeSum
  congr 1
  refine List.map_congr_left (fun idx _ => ?_)
  simp

/-- C5: whenever `finalize_code` completes on a graph whose `block_order` is
a permutation of all block indices, the finalized instruction array and the
parallel location array both have length exactly `N`, the total number of
instructions across all blocks as they stand when linearization runs (after
`dce` when `optimize > 0`). -/
theorem c5_output_lengths (g : CodeInfo) (opt fuel : Nat) (c : CodeObject)
    (hperm : g.block_order.Perm (List.range g.blocks.length))
    (hok : finalize_code g opt fuel = some (.ok c)) :
    c.instructions.length = totalInstructions (if 0 < opt then dce g else g)
    ∧ c.locations.length = totalInstructions (if 0 < opt then dce g else g) := by
  obtain ⟨v, num, tbl, hms, hco, hem, hcm, hc2⟩ := finalize_ok_parts g opt fuel c hok
  set g2 := if 0 < opt then dce g else g with hg2
  have horder : g2.block_order = g.block_order := by
    by_cases ho : 0 < opt <;> simp [hg2, ho, dce_block_order]
  have hblen : g2.blocks.length = g.blocks.length := by
    by_cases ho : 0 < opt <;> simp [hg2, ho, dce_blocks_length]
  have hperm2 : g2.block_order.Perm (List.range g2.blocks.length) := by
    rw [horder, hblen]; exact hperm
  have hnd : g2.block_order.Nodup := hperm2.nodup_iff.mpr (List.nodup_range _)
  have hin : ∀ i ∈ g2.block_order, i < g2.blocks.length :=
    fun i hi => List.mem_range.mp (hperm2.mem_iff.mp hi)
  obtain ⟨_, h1, h2⟩ := emitBlocks_ok tbl g2.block_order g2.blocks [] []
    (c.instructions, c.locations) hnd hin hem
  constructor
  · rw [show c.instructions = _ from h1, List.nil_append, flatten_blockmap_length,
      sizeSum_perm g2 g2.block_order hperm2]
  · rw [show c.locations = _ from h2, List.nil_append, flatten_blockmap_length,
      sizeSum_perm g2 g2.block_order hperm2]

/-- C5 witness: the two-block graph `gOk` finalizes to `objOk`, whose two
arrays both have length 2, the total instruction count of `gOk`. -/
theorem c5_output_lengths_witness :
    objOk.instructions.length = totalInstructions (if 0 < 0 then dce gOk else gOk)
    ∧ objOk.locations.length = totalInstructions (if 0 < 0 then dce gOk else gOk) :=
  c5_output_lengths gOk 0 50 objOk (List.Perm.refl _) rfl

theorem specOffset_sizeSum (g : CodeInfo) (k : Nat) :
    specOffset g k = sizeSum g.blocks (g.block_order.take k) := rfl

theorem findIdx_mem_getD (order : List Nat) (t : Nat) (ht : t ∈ order) :
    order.findIdx (fun x => x = t) < order.length
      ∧ order.getD (order.findIdx (fun x => x = t)) 0 = t := by
  have hlt : order.findIdx (fun x => x = t) < order.length := by
    rcases Nat.lt_or_ge (order.findIdx (fun x => x = t)) order.length with h | h
    · exact h
    · have heq : order.findIdx (fun x => x = t) = order.length :=
        Nat.le_antisymm (List.findIdx_le_length _) h
      have := (List.findIdx_eq_length.mp heq) t ht
      simp at this
  have hp := @List.findIdx_getElem _ (fun x => x = t) order hlt
  refine ⟨hlt, ?_⟩
  rw [List.getD_eq_getElem order 0 hlt]
  exact of_decide_eq_true hp

theorem sizeSum_take_drop (blocks : List Block) (order : List Nat) (k : Nat) :
    sizeSum blocks (order.take k) + sizeSum blocks (order.drop k)
      = sizeSum blocks order := by
  unfold sizeSum
  rw [List.map_take, List.map_drop, List.sum_take_add_sum_drop]

theorem sizeSum_take_succ (blocks : List Block) (order : List Nat) (k : Nat)
    (hk : k < order.length) :
    sizeSum blocks (order.take (k + 1))
      = sizeSum blocks (order.take k)
        + (blocks.getD (order.getD k 0) Block.default).instructions.length := by
  unfold sizeSum
  rw [List.take_succ, List.getElem?_eq_getElem hk, List.getD_eq_getElem order 0 hk]
  rw [show (some order[k]).toList = [order[k]] from rfl]
  rw [List.map_append, List.sum_append]
  rfl

/-- C1 (amended): for a graph satisfying the input contract, linearization
emits instructions in `block_order` order and rewrites every branch operand
to the prefix-sum offset of its target block (`specRewrite`/`specOffset`).
Every rewritten target equals the starting offset of some block of
`block_order` and is at most the length of the finalized array; the offset
at position `k` is a strictly valid index whenever any instruction is
emitted at or after it (so a branch into an empty block resolves to the
offset of the next content that follows it, clause 5), but a target whose
block and all later blocks are empty rewrites to the array length itself,
one past the last valid index. -/
theorem c1_linearize (g : CodeInfo) (fuel : Nat) (c : CodeObject)
    (hperm : g.block_order.Perm (List.range g.blocks.length))
    (hok : finalize_code g 0 fuel = some (.ok c)) :
    c.instructions = (g.block_order.map (fun idx =>
        (g.blocks.getD idx Block.default).instructions.map
          (fun ii => specRewrite g ii.instr))).flatten
    ∧ (∀ i ∈ c.instructions, ∀ t, i.labelArg = some t →
        ∃ k, k < g.block_order.length ∧ t = specOffset g k)
    ∧ (∀ i ∈ c.instructions, ∀ t, i.labelArg = some t → t ≤ c.instructions.length)
    ∧ (∀ k, k < g.block_order.length →
        0 < sizeSum g.blocks (g.block_order.drop k) →
        specOffset g k < c.instructions.length)
    ∧ (∀ k, k < g.block_order.length →
        sizeAt g (g.block_order.getD k 0) = 0 →
        specOffset g (k + 1) = specOffset g k) := by
  obtain ⟨v, num, tbl, hms, hco, hem, hcm, hc2⟩ := finalize_ok_parts g 0 fuel c hok
  rw [if_neg (lt_irrefl 0)] at hco hem
  have hnd : g.block_order.Nodup := hperm.nodup_iff.mpr (List.nodup_range _)
  have hin : ∀ i ∈ g.block_order, i < g.blocks.length :=
    fun i hi => List.mem_range.mp (hperm.mem_iff.mp hi)
  have hmem : ∀ t, t < g.blocks.length → t ∈ g.block_order :=
    fun t ht => hperm.mem_iff.mpr (List.mem_range.mpr ht)
  obtain ⟨tbl0, hfold, htlen, _, hpos⟩ :=
    computeOffsets_fold g.blocks g.block_order 0
      (List.replicate g.blocks.length 0) hnd hin (by simp)
  unfold computeOffsets at hco
  have hpair := Except.ok.inj (hfold.symm.trans hco)
  have htbl : tbl0 = tbl := congrArg Prod.snd hpair
  rw [htbl] at htlen hpos
  have htbl_len : tbl.length = g.blocks.length := by
    rw [htlen, List.length_replicate]
  obtain ⟨hlabs, h1, _⟩ := emitBlocks_ok tbl g.block_order g.blocks [] []
    (c.instructions, c.locations) hnd hin hem
  have htblval : ∀ t ∈ g.block_order, tbl.getD t 0 = specOffsetOf g t := by
    intro t ht
    obtain ⟨hk, hkd⟩ := findIdx_mem_getD g.block_order t ht
    have hv := hpos (g.block_order.findIdx (fun x => x = t)) hk
    rw [hkd] at hv
    rw [List.getD_eq_getD_get?, hv]
    unfold specOffsetOf
    rw [specOffset_sizeSum]
    simp
  have hrw : ∀ idx ∈ g.block_order,
      ∀ ii ∈ (g.blocks.getD idx Block.default).instructions,
        rewritePure tbl ii.instr = specRewrite g ii.instr := by
    intro idx hidx ii hii
    have hlab2 := hlabs idx hidx ii hii
    obtain ⟨⟨ef, eb, la, un⟩, lo⟩ := ii
    cases la with
    | none => rfl
    | some t =>
      have hlt : t < tbl.length := hlab2 t rfl
      show (⟨ef, eb, some (tbl.getD t 0), un⟩ : Instruction)
        = ⟨ef, eb, some (specOffsetOf g t), un⟩
      rw [htblval t (hmem t (htbl_len ▸ hlt))]
  have hinstr : c.instructions = (g.block_order.map (fun idx =>
      (g.blocks.getD idx Block.default).instructions.map
        (fun ii => specRewrite g ii.instr))).flatten := by
    rw [show c.instructions = _ from h1, List.nil_append]
    congr 1
    refine List.map_congr_left (fun idx hidx => ?_)
    exact List.map_congr_left (fun ii hii => hrw idx hidx ii hii)
  have hclen : c.instructions.length = sizeSum g.blocks g.block_order := by
    rw [hinstr, flatten_blockmap_length]
  have htargets : ∀ i ∈ c.instructions, ∀ t, i.labelArg = some t →
      ∃ k, k < g.block_order.length ∧ t = specOffset g k := by
    intro i hi t ht
    rw [hinstr] at hi
    obtain ⟨l, hl, hil⟩ := List.mem_flatten.mp hi
    obtain ⟨idx, hidx, rfl⟩ := List.mem_map.mp hl
    obtain ⟨ii, hii, rfl⟩ := List.mem_map.mp hil
    have hlab2 := hlabs idx hidx ii hii
    obtain ⟨⟨ef, eb, la, un⟩, lo⟩ := ii
    cases la with
    | none => exact Option.noConfusion ht
    | some t0 =>
      have ht0 : t = specOffsetOf g t0 := (Option.some.inj ht).symm
      have hlt : t0 < tbl.length := hlab2 t0 rfl
      obtain ⟨hk, _⟩ := findIdx_mem_getD g.block_order t0 (hmem t0 (htbl_len ▸ hlt))
      exact ⟨g.block_order.findIdx (fun x => x = t0), hk, ht0⟩
  refine ⟨hinstr, htargets, ?_, ?_, ?_⟩
  · intro i hi t ht
    obtain ⟨k, _, rfl⟩ := htargets i hi t ht
    rw [hclen, specOffset_sizeSum]
    have := sizeSum_take_drop g.blocks g.block_order k
    omega
  · intro k _ hdrop
    rw [hclen, specOffset_sizeSum]
    have := sizeSum_take_drop g.blocks g.block_order k
    omega
  · intro k hk hsz
    rw [specOffset_sizeSum, specOffset_sizeSum, sizeSum_take_succ g.blocks g.block_order k hk]
    unfold sizeAt at hsz
    omega

/-- C1 witness: the amended linearization theorem applied to the concrete
two-block graph `gOk`, all hypotheses discharged by evaluation. -/
theorem c1_linearize_witness :
    objOk.instructions = (gOk.block_order.map (fun idx =>
        (gOk.blocks.getD idx Block.default).instructions.map
          (fun ii => specRewrite gOk ii.instr))).flatten :=
  (c1_linearize gOk 50 objOk (List.Perm.refl _) rfl).1

/-! ### Panic classification for contract inputs (C7) -/

theorem stackdepth_push_eq (stack : List (Nat × Nat)) (sd : List Int)
    (target : Nat × Nat) (depth : Int) (h : target.1 < sd.length) :
    stackdepth_push stack sd target depth
      = if depth > sd.getD target.1 0 then .ok (target :: stack, sd.set target.1 depth)
        else .ok (stack, sd) := by
  unfold stackdepth_push
  rw [idxE_ok_getD sd target.1 0 h]
  show (if depth > sd.getD target.1 0 then
      pure (target :: stack, sd.set target.1 depth)
    else pure (stack, sd) : Except RPanic _) = _
  by_cases hd : depth > sd.getD target.1 0
  · rw [if_pos hd, if_pos hd]; rfl
  · rw [if_neg hd, if_neg hd]; rfl

theorem stackdepth_push_inv (n : Nat) (stack : List (Nat × Nat)) (sd : List Int)
    (target : Nat × Nat) (depth : Int)
    (hsd : sd.length = n) (hstk : ∀ p ∈ stack, p.1 < n) (htn : target.1 < n) :
    ∃ stk' sd', stackdepth_push stack sd target depth = .ok (stk', sd')
      ∧ sd'.length = n ∧ ∀ p ∈ stk', p.1 < n := by
  rw [stackdepth_push_eq stack sd target depth (hsd ▸ htn)]
  by_cases hd : depth > sd.getD target.1 0
  · rw [if_pos hd]
    refine ⟨target :: stack, sd.set target.1 depth, rfl,
      by rw [List.length_set]; exact hsd, ?_⟩
    intro p hp
    rcases List.mem_cons.mp hp with he | hm
    · rw [he]; exact htn
    · exact hstk p hm
  · rw [if_neg hd]
    exact ⟨stack, sd, rfl, hsd, hstk⟩

theorem walkInstrs_inv (n : Nat) :
    ∀ (l : List InstructionInfo) (d : Int) (st : WalkSt),
      (∀ ii ∈ l, ∀ t, ii.instr.labelArg = some t → t < n) →
      st.startdepths.length = n → (∀ p ∈ st.stack, p.1 < n) →
      ∃ (st' : WalkSt) (out : Option Int),
        walkInstrs l d st = .ok (st', out)
        ∧ st'.startdepths.length = n ∧ ∀ p ∈ st'.stack, p.1 < n := by
  intro l
  induction l with
  | nil => intro d st _ h1 h2; exact ⟨st, some d, rfl, h1, h2⟩
  | cons i rest ih =>
    intro d st hl h1 h2
    have hli : ∀ t, i.instr.labelArg = some t → t < n :=
      hl i (List.mem_cons_self i rest)
    have hlr : ∀ ii ∈ rest, ∀ t, ii.instr.labelArg = some t → t < n :=
      fun ii hm => hl ii (List.mem_cons_of_mem i hm)
    cases hla : i.instr.label_arg with
    | none =>
      cases hu : i.instr.unconditional_branch with
      | true =>
        refine ⟨{ st with maxdepth :=
            if d + i.instr.stack_effect false > st.maxdepth then
              d + i.instr.stack_effect false
            else st.maxdepth }, none, ?_, h1, h2⟩
        unfold walkInstrs
        simp only [hla, hu, if_true]
        rfl
      | false =>
        obtain ⟨st', out, heq, k1, k2⟩ :=
          ih (d + i.instr.stack_effect false)
            { st with maxdepth :=
                if d + i.instr.stack_effect false > st.maxdepth then
                  d + i.instr.stack_effect false
                else st.maxdepth }
            hlr h1 h2
        refine ⟨st', out, ?_, k1, k2⟩
        unfold walkInstrs
        simp only [hla, hu]
        exact heq
    | some t =>
      have htn : t < n := hli t hla
      obtain ⟨stk', sd', hpush, hsd', hstk'⟩ :=
        stackdepth_push_inv n st.stack st.startdepths (t, UMAX)
          (d + i.instr.stack_effect true) h1 h2 htn
      cases hu : i.instr.unconditional_branch with
      | true =>
        refine ⟨⟨if d + i.instr.stack_effect true >
              (if d + i.instr.stack_effect false > st.maxdepth then
                d + i.instr.stack_effect false
              else st.maxdepth) then
            d + i.instr.stack_effect true
          else if d + i.instr.stack_effect false > st.maxdepth then
            d + i.instr.stack_effect false
          else st.maxdepth,
          stk', sd'⟩, none, ?_, hsd', hstk'⟩
        unfold walkInstrs
        simp only [hla, hu, hpush]
        rfl
      | false =>
        obtain ⟨st', out, heq, k1, k2⟩ :=
          ih (d + i.instr.stack_effect false)
            ⟨if d + i.instr.stack_effect true >
                  (if d + i.instr.stack_effect false > st.maxdepth then
                    d + i.instr.stack_effect false
                  else st.maxdepth) then
                d + i.instr.stack_effect true
              else if d + i.instr.stack_effect false > st.maxdepth then
                d + i.instr.stack_effect false
              else st.maxdepth,
              stk', sd'⟩
            hlr hsd' hstk'
        refine ⟨st', out, ?_, k1, k2⟩
        unfold walkInstrs
        simp only [hla, hu, hpush]
        exact heq

theorem ok_bind {ε α β : Type} (a : α) (f : α → Except ε β) :
    (Except.ok a >>= f : Except ε β) = f a := rfl

theorem error_bind {ε α β : Type} (e : ε) (f : α → Except ε β) :
    (Except.error e >>= f : Except ε β) = .error e := rfl

theorem findIdx?_of_mem {α : Type} (p : α → Bool) (l : List α) (a : α)
    (ha : a ∈ l) (hp : p a = true) : ∃ k, l.findIdx? p = some k := by
  cases hf : l.findIdx? p with
  | some k => exact ⟨k, rfl⟩
  | none =>
    have := List.findIdx?_eq_none_iff.mp hf a ha
    rw [hp] at this
    exact absurd this (by simp)

theorem nextBlockorderOf_ok (g : CodeInfo) (b bo : Nat) (hb : b ∈ g.block_order) :
    ∃ nbo, nextBlockorderOf g b bo = .ok nbo := by
  unfold nextBlockorderOf
  by_cases hbo : bo = UMAX
  · rw [if_pos hbo]
    obtain ⟨p, hfi⟩ := findIdx?_of_mem (fun x => x = b) g.block_order b hb (by simp)
    rw [hfi]
    exact ⟨p + 1, rfl⟩
  · rw [if_neg hbo]
    exact ⟨bo + 1, rfl⟩

theorem nextOf_error (g : CodeInfo) (nbo : Nat) (e : RPanic)
    (h : nextOf g nbo = .error e) : e = .fallOff := by
  unfold nextOf at h
  cases hg : g.block_order.get? nbo with
  | some nb => rw [hg] at h; exact Except.noConfusion h
  | none =>
    rw [hg] at h
    exact (Except.error.inj h).symm

theorem nextOf_ok_mem (g : CodeInfo) (nbo nb : Nat)
    (h : nextOf g nbo = .ok nb) : nb ∈ g.block_order := by
  unfold nextOf at h
  cases hg : g.block_order.get? nbo with
  | some nb' =>
    rw [hg] at h
    exact (Except.ok.inj h) ▸ List.get?_mem hg
  | none => rw [hg] at h; exact Except.noConfusion h

theorem fallThrough_inv (g : CodeInfo)
    (hperm : g.block_order.Perm (List.range g.blocks.length))
    (b bo : Nat) (seen1 : List Bool) (wst : WalkSt) (depth : Int)
    (hb : b < g.blocks.length)
    (hs1 : seen1.length = g.blocks.length)
    (hw1 : wst.startdepths.length = g.blocks.length)
    (hw2 : ∀ p ∈ wst.stack, p.1 < g.blocks.length) :
    (∃ st', fallThrough g b bo seen1 wst depth = .ok st'
      ∧ st'.startdepths.length = g.blocks.length
      ∧ st'.seen.length = g.blocks.length
      ∧ ∀ p ∈ st'.stack, p.1 < g.blocks.length)
    ∨ fallThrough g b bo seen1 wst depth = .error .fallOff := by
  have hmem : ∀ t, t < g.blocks.length → t ∈ g.block_order :=
    fun t ht => hperm.mem_iff.mpr (List.mem_range.mpr ht)
  unfold fallThrough
  rw [setE_ok seen1 b false (hs1 ▸ hb)]
  simp only [ok_bind]
  obtain ⟨nbo, hnb⟩ := nextBlockorderOf_ok g b bo (hmem b hb)
  rw [hnb]
  simp only [ok_bind]
  cases hnx : nextOf g nbo with
  | error e =>
    right
    have he := nextOf_error g nbo e hnx
    subst he
    rw [error_bind]
  | ok nb =>
    simp only [ok_bind]
    have hnbn : nb < g.blocks.length :=
      List.mem_range.mp (hperm.mem_iff.mp (nextOf_ok_mem g nbo nb hnx))
    obtain ⟨stk', sd', hpush, hsd', hstk'⟩ :=
      stackdepth_push_inv g.blocks.length wst.stack wst.startdepths (nb, nbo) depth
        hw1 hw2 hnbn
    rw [hpush]
    simp only [ok_bind]
    left
    refine ⟨⟨wst.maxdepth, stk', sd', (seen1.set b false)⟩, rfl, hsd', ?_, hstk'⟩
    rw [List.length_set]
    exact hs1

theorem loopBody_eq_notseen (g : CodeInfo) (b bo : Nat) (st : LoopSt)
    (hb : b < g.blocks.length)
    (h1 : st.startdepths.length = g.blocks.length)
    (h2 : st.seen.length = g.blocks.length)
    (hsn : st.seen.getD b false = false) :
    loopBody g b bo st
      = (walkInstrs (g.blocks.getD b Block.default).instructions
          (st.startdepths.getD b 0) ⟨st.maxdepth, st.stack, st.startdepths⟩
        >>= fun r =>
          match r.2 with
          | none => pure ⟨r.1.maxdepth, r.1.stack, r.1.startdepths, st.seen.set b true⟩
          | some depth => fallThrough g b bo (st.seen.set b true) r.1 depth) := by
  unfold loopBody
  rw [idxE_ok_getD st.seen b false (h2 ▸ hb), hsn]
  show (if false = true then pure st else _ : Except RPanic LoopSt) = _
  rw [if_neg (by simp)]
  rw [setE_ok st.seen b true (h2 ▸ hb),
    idxE_ok_getD st.startdepths b 0 (h1 ▸ hb),
    idxE_ok_getD g.blocks b Block.default hb]
  rfl

theorem loopBody_inv (g : CodeInfo)
    (hperm : g.block_order.Perm (List.range g.blocks.length))
    (hlab : ∀ blk ∈ g.blocks, ∀ ii ∈ blk.instructions, ∀ t,
      ii.instr.labelArg = some t → t < g.blocks.length)
    (b bo : Nat) (st : LoopSt) (hb : b < g.blocks.length)
    (h1 : st.startdepths.length = g.blocks.length)
    (h2 : st.seen.length = g.blocks.length)
    (h3 : ∀ p ∈ st.stack, p.1 < g.blocks.length) :
    (∃ st', loopBody g b bo st = .ok st'
      ∧ st'.startdepths.length = g.blocks.length
      ∧ st'.seen.length = g.blocks.length
      ∧ ∀ p ∈ st'.stack, p.1 < g.blocks.length)
    ∨ loopBody g b bo st = .error .fallOff := by
  cases hsn : st.seen.getD b false with
  | true =>
    left
    refine ⟨st, ?_, h1, h2, h3⟩
    unfold loopBody
    rw [idxE_ok_getD st.seen b false (h2 ▸ hb), hsn]
    rfl
  | false =>
    rw [loopBody_eq_notseen g b bo st hb h1 h2 hsn]
    have hblk : (g.blocks.getD b Block.default) ∈ g.blocks := by
      rw [List.getD_eq_getElem g.blocks Block.default hb]
      exact List.getElem_mem hb
    obtain ⟨wst, fell, hwalk, hw1, hw2⟩ :=
      walkInstrs_inv g.blocks.length (g.blocks.getD b Block.default).instructions
        (st.startdepths.getD b 0) ⟨st.maxdepth, st.stack, st.startdepths⟩
        (fun ii hii t ht => hlab _ hblk ii hii t ht) h1 h3
    rw [hwalk]
    cases fell with
    | none =>
      left
      refine ⟨⟨wst.maxdepth, wst.stack, wst.startdepths, st.seen.set b true⟩,
        rfl, hw1, ?_, hw2⟩
      rw [List.length_set]
      exact h2
    | some depth =>
      have hft := fallThrough_inv g hperm b bo (st.seen.set b true) wst depth hb
        (by rw [List.length_set]; exact h2) hw1 hw2
      rcases hft with ⟨st', hok, k1, k2, k3⟩ | herr
      · left
        exact ⟨st', hok, k1, k2, k3⟩
      · right
        exact herr

theorem maxStacksizeLoop_fallOff (g : CodeInfo)
    (hperm : g.block_order.Perm (List.range g.blocks.length))
    (hlab : ∀ blk ∈ g.blocks, ∀ ii ∈ blk.instructions, ∀ t,
      ii.instr.labelArg = some t → t < g.blocks.length) :
    ∀ (fuel : Nat) (st : LoopSt),
      st.startdepths.length = g.blocks.length →
      st.seen.length = g.blocks.length →
      (∀ p ∈ st.stack, p.1 < g.blocks.length) →
      ∀ e, maxStacksizeLoop g fuel st = some (.error e) → e = .fallOff := by
  intro fuel
  induction fuel with
  | zero => intro st _ _ _ e h; exact Option.noConfusion h
  | succ n ih =>
    intro st h1 h2 h3 e h
    obtain ⟨md, stk, sd, sn⟩ := st
    cases stk with
    | nil => exact Except.noConfusion (Option.some.inj h)
    | cons p rest =>
      obtain ⟨b1, b2⟩ := p
      have hb1 : b1 < g.blocks.length := h3 (b1, b2) (List.mem_cons_self _ _)
      have h3' : ∀ q ∈ rest, q.1 < g.blocks.length :=
        fun q hq => h3 q (List.mem_cons_of_mem _ hq)
      have heq : maxStacksizeLoop g (n + 1) ⟨md, (b1, b2) :: rest, sd, sn⟩
          = (match loopBody g b1 b2 ⟨md, rest, sd, sn⟩ with
            | Except.error e2 => some (Except.error e2)
            | Except.ok st2 => maxStacksizeLoop g n st2) := rfl
      rw [heq] at h
      rcases loopBody_inv g hperm hlab b1 b2 ⟨md, rest, sd, sn⟩ hb1 h1 h2 h3'
        with ⟨st', hok, k1, k2, k3⟩ | herr
      · rw [hok] at h
        exact ih st' k1 k2 k3 e h
      · rw [herr] at h
        exact (Except.error.inj (Option.some.inj h)).symm

theorem max_stacksize_fallOff (g : CodeInfo)
    (hn : 0 < g.blocks.length)
    (hperm : g.block_order.Perm (List.range g.blocks.length))
    (hlab : ∀ blk ∈ g.blocks, ∀ ii ∈ blk.instructions, ∀ t,
      ii.instr.labelArg = some t → t < g.blocks.length)
    (fuel : Nat) (e : RPanic)
    (h : max_stacksize g fuel = some (.error e)) : e = .fallOff := by
  unfold max_stacksize at h
  cases hml : maxStacksizeLoop g fuel
      ⟨0, [(0, 0)], List.replicate g.blocks.length 0,
        List.replicate g.blocks.length false⟩ with
  | none => rw [hml] at h; exact Option.noConfusion h
  | some r =>
    rw [hml] at h
    cases r with
    | ok d => exact Except.noConfusion (Option.some.inj h)
    | error e2 =>
      have he : e2 = e := Except.error.inj (Option.some.inj h)
      subst he
      refine maxStacksizeLoop_fallOff g hperm hlab fuel _ (by simp) (by simp) ?_ e2 hml
      intro p hp
      have : p = (0, 0) := List.mem_singleton.mp hp
      rw [this]
      exact hn

theorem rewriteInstr_succeeds (tbl : List Nat) (i : Instruction)
    (h : ∀ t, i.labelArg = some t → t < tbl.length) :
    ∃ v, rewriteInstr tbl i = .ok v := by
  obtain ⟨ef, eb, la, un⟩ := i
  cases la with
  | none => exact ⟨⟨ef, eb, none, un⟩, rfl⟩
  | some t =>
    have ht := h t rfl
    refine ⟨⟨ef, eb, some (tbl.getD t 0), un⟩, ?_⟩
    show (idxE tbl t >>= fun off => pure (⟨ef, eb, some off, un⟩ : Instruction)) = _
    rw [idxE_ok_getD tbl t 0 ht, ok_bind]
    rfl

theorem emitFold_succeeds (tbl : List Nat) :
    ∀ (l : List InstructionInfo) (a1 : List Instruction) (a2 : List Location),
      (∀ ii ∈ l, ∀ t, ii.instr.labelArg = some t → t < tbl.length) →
      ∃ out, l.foldlM (emitStep tbl) (a1, a2) = .ok out := by
  intro l
  induction l with
  | nil => intro a1 a2 _; exact ⟨(a1, a2), rfl⟩
  | cons ii rest ih =>
    intro a1 a2 hl
    obtain ⟨v, hv⟩ := rewriteInstr_succeeds tbl ii.instr (hl ii (List.mem_cons_self _ _))
    rw [List.foldlM_cons]
    rw [show emitStep tbl (a1, a2) ii = .ok (a1 ++ [v], a2 ++ [ii.location]) by
      unfold emitStep; rw [hv, ok_bind]; rfl]
    rw [ok_bind]
    exact ih (a1 ++ [v]) (a2 ++ [ii.location])
      (fun jj hm => hl jj (List.mem_cons_of_mem _ hm))

theorem emitBlocks_succeeds (tbl : List Nat) :
    ∀ (order : List Nat) (blocks : List Block) (a1 : List Instruction) (a2 : List Location),
      (∀ i ∈ order, i < blocks.length) →
      (∀ blk ∈ blocks, ∀ ii ∈ blk.instructions, ∀ t,
        ii.instr.labelArg = some t → t < tbl.length) →
      ∃ out, emitBlocks tbl order blocks a1 a2 = .ok out := by
  intro order
  induction order with
  | nil => intro blocks a1 a2 _ _; exact ⟨(a1, a2), rfl⟩
  | cons idx rest ih =>
    intro blocks a1 a2 hin hlab
    have hidx : idx < blocks.length := hin idx (List.mem_cons_self _ _)
    rw [emitBlocks_cons_eq tbl idx rest blocks a1 a2 hidx]
    have hblk : blocks.getD idx Block.default ∈ blocks := by
      rw [List.getD_eq_getElem blocks Block.default hidx]
      exact List.getElem_mem hidx
    obtain ⟨p, hp⟩ := emitFold_succeeds tbl (blocks.getD idx Block.default).instructions
      a1 a2 (fun ii hii t ht => hlab _ hblk ii hii t ht)
    rw [hp, ok_bind]
    refine ih (blocks.set idx Block.default) p.1 p.2 ?_ ?_
    · intro i hi
      rw [List.length_set]
      exact hin i (List.mem_cons_of_mem _ hi)
    · intro blk hm ii hii t ht
      obtain ⟨j, hj⟩ := List.mem_iff_get?.mp hm
      rw [List.get?_eq_getElem?] at hj
      by_cases hji : idx = j
      · subst hji
        rw [List.getElem?_set_self hidx] at hj
        have hbd : blk = Block.default := (Option.some.inj hj).symm
        rw [hbd] at hii
        exact absurd hii (by simp [Block.default])
      · rw [List.getElem?_set_ne hji] at hj
        have : blk ∈ blocks := by
          rw [← List.get?_eq_getElem?] at hj
          exact List.get?_mem hj
        exact hlab blk this ii hii t ht

theorem hlab_dce (g : CodeInfo)
    (hlab : ∀ blk ∈ g.blocks, ∀ ii ∈ blk.instructions, ∀ t,
      ii.instr.labelArg = some t → t < g.blocks.length) :
    ∀ blk ∈ (dce g).blocks, ∀ ii ∈ blk.instructions, ∀ t,
      ii.instr.labelArg = some t → t < (dce g).blocks.length := by
  intro blk hm ii hii t ht
  rw [dce_blocks_length]
  unfold dce at hm
  obtain ⟨b0, hb0, hbeq⟩ := List.mem_map.mp hm
  rw [← hbeq, dceBlock_instructions] at hii
  have hmem2 : ii ∈ b0.instructions := by
    unfold truncUncond at hii
    cases hfi : b0.instructions.findIdx? (fun i => i.instr.unconditional_branch) with
    | none => rw [hfi] at hii; exact hii
    | some k =>
      rw [hfi] at hii
      exact List.mem_of_mem_take hii
  exact hlab b0 hb0 ii hmem2 t ht

theorem finalize_error_fallOff (g : CodeInfo)
    (hn : 0 < g.blocks.length)
    (hperm : g.block_order.Perm (List.range g.blocks.length))
    (hlab : ∀ blk ∈ g.blocks, ∀ ii ∈ blk.instructions, ∀ t,
      ii.instr.labelArg = some t → t < g.blocks.length)
    (fuel opt : Nat) (e : RPanic)
    (h : finalize_code g opt fuel = some (.error e)) : e = .fallOff := by
  unfold finalize_code at h
  cases hms : max_stacksize g fuel with
  | none => rw [hms] at h; exact Option.noConfusion h
  | some r =>
    rw [hms] at h
    cases r with
    | error e2 =>
      have he : e2 = e := Except.error.inj (Option.some.inj h)
      subst he
      exact max_stacksize_fallOff g hn hperm hlab fuel e2 hms
    | ok v =>
      exfalso
      have h2 := Option.some.inj h
      have hlen : g.block_order.length = g.blocks.length := by
        rw [hperm.length_eq, List.length_range]
      have hcond : (if 0 < opt then dce g else g).block_order.length
          = (if 0 < opt then dce g else g).blocks.length :=
        (finalize_lengths g opt).mpr hlen
      rw [if_pos hcond] at h2
      have horder : (if 0 < opt then dce g else g).block_order = g.block_order := by
        by_cases ho : 0 < opt <;> simp [ho, dce_block_order]
      have hblen : (if 0 < opt then dce g else g).blocks.length = g.blocks.length := by
        by_cases ho : 0 < opt <;> simp [ho, dce_blocks_length]
      have hperm2 : (if 0 < opt then dce g else g).block_order.Perm
          (List.range (if 0 < opt then dce g else g).blocks.length) := by
        rw [horder, hblen]; exact hperm
      have hnd : (if 0 < opt then dce g else g).block_order.Nodup :=
        hperm2.nodup_iff.mpr (List.nodup_range _)
      have hin : ∀ i ∈ (if 0 < opt then dce g else g).block_order,
          i < (if 0 < opt then dce g else g).blocks.length :=
        fun i hi => List.mem_range.mp (hperm2.mem_iff.mp hi)
      have hlab2 : ∀ blk ∈ (if 0 < opt then dce g else g).blocks,
          ∀ ii ∈ blk.instructions, ∀ t, ii.instr.labelArg = some t →
            t < (if 0 < opt then dce g else g).blocks.length := by
        by_cases ho : 0 < opt
        · simp only [ho, if_true]
          exact hlab_dce g hlab
        · simp only [ho, if_false]
          exact hlab
      obtain ⟨tbl0, hfold, htlen, _, _⟩ :=
        computeOffsets_fold (if 0 < opt then dce g else g).blocks
          (if 0 < opt then dce g else g).block_order 0
          (List.replicate (if 0 < opt then dce g else g).blocks.length 0)
          hnd hin (by simp)
      rw [show computeOffsets (if 0 < opt then dce g else g).blocks
          (if 0 < opt then dce g else g).block_order
          = Except.ok (0 + sizeSum (if 0 < opt then dce g else g).blocks
              (if 0 < opt then dce g else g).block_order, tbl0) from hfold] at h2
      rw [ok_bind] at h2
      have htlen2 : tbl0.length = (if 0 < opt then dce g else g).blocks.length := by
        rw [htlen, List.length_replicate]
      obtain ⟨out, hemit⟩ := emitBlocks_succeeds tbl0
        (if 0 < opt then dce g else g).block_order
        (if 0 < opt then dce g else g).blocks [] [] hin
        (fun blk hm ii hii t ht => htlen2 ▸ hlab2 blk hm ii hii t ht)
      have h3 : (emitBlocks tbl0 (if 0 < opt then dce g else g).block_order
          (if 0 < opt then dce g else g).blocks [] []
          >>= fun q =>
            pure { flags := (if 0 < opt then dce g else g).flags
                   posonlyarg_count := (if 0 < opt then dce g else g).posonlyarg_count
                   arg_count := (if 0 < opt then dce g else g).arg_count
                   kwonlyarg_count := (if 0 < opt then dce g else g).kwonlyarg_count
                   source_path := (if 0 < opt then dce g else g).source_path
                   first_line_number := (if 0 < opt then dce g else g).first_line_number
                   obj_name := (if 0 < opt then dce g else g).obj_name
                   max_stacksize := v
                   instructions := q.1
                   locations := q.2
                   constants := (if 0 < opt then dce g else g).constants
                   names := (if 0 < opt then dce g else g).name_cache
                   varnames := (if 0 < opt then dce g else g).varname_cache
                   cellvars := (if 0 < opt then dce g else g).cellvar_cache
                   freevars := (if 0 < opt then dce g else g).freevar_cache
                   cell2arg := cell2arg g } : Except RPanic CodeObject)
          = Except.error e := h2
      rw [hemit, ok_bind] at h3
      exact Except.noConfusion h3

/-- C7 (amended): for a graph satisfying the input contract (a nonempty
block list, `block_order` a permutation of all block indices, every branch
operand a valid `BlockId`), the only panic `finalize_code` can surface
besides the length assertion — which the contract rules out — is the
index-out-of-range panic raised when a processed block falls through past
the last position of `block_order`; in particular `max_stacksize` never
hits any other panic site (no bad block index, no failed `position
unwrap`), but it does panic in the fall-off case, so `finalize_code` does
not always complete. -/
theorem c7_panic_classification (g : CodeInfo)
    (hn : 0 < g.blocks.length)
    (hperm : g.block_order.Perm (List.range g.blocks.length))
    (hlab : ∀ blk ∈ g.blocks, ∀ ii ∈ blk.instructions, ∀ t,
      ii.instr.labelArg = some t → t < g.blocks.length) :
    ∀ (fuel opt : Nat),
      max_stacksize g fuel ≠ some (.error .badIndex)
      ∧ max_stacksize g fuel ≠ some (.error .missingBlock)
      ∧ max_stacksize g fuel ≠ some (.error .assertOrder)
      ∧ finalize_code g opt fuel ≠ some (.error .badIndex)
      ∧ finalize_code g opt fuel ≠ some (.error .missingBlock)
      ∧ finalize_code g opt fuel ≠ some (.error .assertOrder) := by
  intro fuel opt
  refine ⟨fun h => ?_, fun h => ?_, fun h => ?_, fun h => ?_, fun h => ?_, fun h => ?_⟩
  · exact RPanic.noConfusion (max_stacksize_fallOff g hn hperm hlab fuel _ h)
  · exact RPanic.noConfusion (max_stacksize_fallOff g hn hperm hlab fuel _ h)
  · exact RPanic.noConfusion (max_stacksize_fallOff g hn hperm hlab fuel _ h)
  · exact RPanic.noConfusion (finalize_error_fallOff g hn hperm hlab fuel opt _ h)
  · exact RPanic.noConfusion (finalize_error_fallOff g hn hperm hlab fuel opt _ h)
  · exact RPanic.noConfusion (finalize_error_fallOff g hn hperm hlab fuel opt _ h)

/-- C7 witness: the classification applied to the concrete single-block
contract graph `gFall` (which does panic, with the fall-off panic only). -/
theorem c7_panic_classification_witness :
    max_stacksize gFall 50 ≠ some (.error .badIndex)
      ∧ finalize_code gFall 0 50 ≠ some (.error .missingBlock) :=
  ⟨(c7_panic_classification gFall (by decide) (List.Perm.refl _)
      (by intro blk hm ii hii t ht; simp [gFall, mkG, mkB] at hm; simp [hm] at hii)
      50 0).1,
    (c7_panic_classification gFall (by decide) (List.Perm.refl _)
      (by intro blk hm ii hii t ht; simp [gFall, mkG, mkB] at hm; simp [hm] at hii)
      50 0).2.2.2.2.1⟩

end RPIr
